import Mathlib

/-!
# Key slot cache (`stratosphere/spl/source/spl_key_slot_cache.hpp`)

A shallow embedding of `ams::spl::KeySlotCacheEntry` and `ams::spl::KeySlotCache`.

* An `s32` is an `Int`; the code only copies and compares these values, so no
  arithmetic can overflow.  `IsS32` is the range of the machine type.
* The intrusive list `m_mru_list` is a `List` of entry values, front of the
  list first.  A list iterator is a position (a `Nat`) in that list.
  `push_front` is `::`, `push_back` is `++ [_]`, `pop_back` is `dropLast`,
  `erase(it)` is `eraseIdx it`, `*rbegin()` is `getLast?`.
* A member function that mutates the cache returns the new cache next to its
  result.  `bool f(s32 *out, ...)` returns `some p` for `true` with `*out = p`
  and `none` for `false` (where the code leaves `*out` untouched).
* `AMS_ASSERT` failure and `AMS_ABORT()` are the outer `none` of
  `AllocateFromLru` and `FindPhysical`.
-/

namespace ams.spl

/-- Range of the machine type `s32`. -/
def IsS32 (x : Int) : Prop := -2147483648 ≤ x ∧ x ≤ 2147483647

instance (x : Int) : Decidable (IsS32 x) := by
  unfold IsS32; exact inferInstance

/-- Class `KeySlotCacheEntry`: the physical index `m_slot_index` (const) and the
virtual slot `m_virtual_slot` bound to it, `-1` when none is. -/
structure KeySlotCacheEntry where
  m_slot_index : Int
  m_virtual_slot : Int
deriving DecidableEq

namespace KeySlotCacheEntry

/-- Constructor `KeySlotCacheEntry(s32 idx) : m_slot_index(idx), m_virtual_slot(-1)`. -/
def new (idx : Int) : KeySlotCacheEntry := ⟨idx, -1⟩

/-- Member `Contains`: `return virtual_slot == m_virtual_slot;`. -/
def Contains (e : KeySlotCacheEntry) (virtual_slot : Int) : Bool :=
  virtual_slot == e.m_virtual_slot

/-- Member `GetPhysicalKeySlotIndex`. -/
def GetPhysicalKeySlotIndex (e : KeySlotCacheEntry) : Int := e.m_slot_index

/-- Member `GetVirtualKeySlotIndex`. -/
def GetVirtualKeySlotIndex (e : KeySlotCacheEntry) : Int := e.m_virtual_slot

/-- Member `SetVirtualSlot`: `m_virtual_slot = virtual_slot;`. -/
def SetVirtualSlot (e : KeySlotCacheEntry) (virtual_slot : Int) : KeySlotCacheEntry :=
  { e with m_virtual_slot := virtual_slot }

/-- Member `ClearVirtualSlot`: `m_virtual_slot = -1;`. -/
def ClearVirtualSlot (e : KeySlotCacheEntry) : KeySlotCacheEntry :=
  { e with m_virtual_slot := -1 }

end KeySlotCacheEntry

/-- Class `KeySlotCache`: the list `m_mru_list`, front (most recently used) first. -/
structure KeySlotCache where
  m_mru_list : List KeySlotCacheEntry
deriving DecidableEq

namespace KeySlotCache

/-- Constructor `KeySlotCache() : m_mru_list()`. -/
def empty : KeySlotCache := ⟨[]⟩

/-- Member `AddEntry`: `m_mru_list.push_front(*entry);`. -/
def AddEntry (c : KeySlotCache) (entry : KeySlotCacheEntry) : KeySlotCache :=
  ⟨entry :: c.m_mru_list⟩

/-- Member `AllocateFromLru`: assert the list is non-empty, bind the last entry
to `virtual_slot`, pop it from the back, push it to the front, return its
physical index. -/
def AllocateFromLru (c : KeySlotCache) (virtual_slot : Int) : Option (Int × KeySlotCache) :=
  match c.m_mru_list.getLast? with
  | none => none
  | some it =>
    let entry := it.SetVirtualSlot virtual_slot
    some (entry.GetPhysicalKeySlotIndex, ⟨entry :: c.m_mru_list.dropLast⟩)

/-- Member `UpdateMru`: erase the entry at `it`, push it to the front.  The
callers only pass positions of the list, so the `none` case is never taken. -/
def UpdateMru (c : KeySlotCache) (it : Nat) : KeySlotCache :=
  match c.m_mru_list[it]? with
  | none => c
  | some entry => ⟨entry :: c.m_mru_list.eraseIdx it⟩

/-- Member `UpdateLru`: erase the entry at `it`, push it to the back.  The
caller only passes a position of the list, so the `none` case is never taken. -/
def UpdateLru (c : KeySlotCache) (it : Nat) : KeySlotCache :=
  match c.m_mru_list[it]? with
  | none => c
  | some entry => ⟨c.m_mru_list.eraseIdx it ++ [entry]⟩

/-- Member `Allocate`: `return this->AllocateFromLru(virtual_slot);`. -/
def Allocate (c : KeySlotCache) (virtual_slot : Int) : Option (Int × KeySlotCache) :=
  c.AllocateFromLru virtual_slot

/-- The `for` loop of `Find`, at iterator position `it` with the entries from
`it` on still to visit. -/
def FindLoop (c : KeySlotCache) (virtual_slot : Int) :
    Nat → List KeySlotCacheEntry → Option Int × KeySlotCache
  | _, [] => (none, c)
  | it, e :: rest =>
    if e.Contains virtual_slot then
      (some e.GetPhysicalKeySlotIndex, c.UpdateMru it)
    else
      FindLoop c virtual_slot (it + 1) rest

/-- Member `Find`. -/
def Find (c : KeySlotCache) (virtual_slot : Int) : Option Int × KeySlotCache :=
  FindLoop c virtual_slot 0 c.m_mru_list

/-- The `for` loop of `Release`: on the first match the entry is cleared in
place, then moved to the back. -/
def ReleaseLoop (c : KeySlotCache) (virtual_slot : Int) :
    Nat → List KeySlotCacheEntry → Option Int × KeySlotCache
  | _, [] => (none, c)
  | it, e :: rest =>
    if e.Contains virtual_slot then
      let cleared : KeySlotCache := ⟨c.m_mru_list.set it e.ClearVirtualSlot⟩
      (some e.GetPhysicalKeySlotIndex, cleared.UpdateLru it)
    else
      ReleaseLoop c virtual_slot (it + 1) rest

/-- Member `Release`. -/
def Release (c : KeySlotCache) (virtual_slot : Int) : Option Int × KeySlotCache :=
  ReleaseLoop c virtual_slot 0 c.m_mru_list

/-- The `for` loop of `FindPhysical`.  After `UpdateMru(it)` the iterator still
designates the same entry, which is then the first of the list; falling out of
the loop reaches `AMS_ABORT()`. -/
def FindPhysicalLoop (c : KeySlotCache) (physical_slot : Int) :
    Nat → List KeySlotCacheEntry → Option (Bool × KeySlotCache)
  | _, [] => none
  | it, e :: rest =>
    if e.GetPhysicalKeySlotIndex == physical_slot then
      let promoted := c.UpdateMru it
      if e.GetVirtualKeySlotIndex == physical_slot then
        some (true, promoted)
      else
        some (false, ⟨promoted.m_mru_list.set 0 (e.SetVirtualSlot physical_slot)⟩)
    else
      FindPhysicalLoop c physical_slot (it + 1) rest

/-- Member `FindPhysical`. -/
def FindPhysical (c : KeySlotCache) (physical_slot : Int) : Option (Bool × KeySlotCache) :=
  FindPhysicalLoop c physical_slot 0 c.m_mru_list

/-- Start-up of the owning module: one fresh entry per physical index of
`idxs`, each passed to `AddEntry` in the order of `idxs`. -/
def registerFresh (idxs : List Int) : KeySlotCache :=
  idxs.foldl (fun c idx => c.AddEntry (KeySlotCacheEntry.new idx)) empty

/-- Consecutive `Allocate` calls, one per virtual slot of the list, in order:
the physical indices returned and the final cache. -/
def AllocateEach (c : KeySlotCache) : List Int → Option (List Int × KeySlotCache)
  | [] => some ([], c)
  | v :: vs =>
    match c.Allocate v with
    | none => none
    | some (p, c1) =>
      match AllocateEach c1 vs with
      | none => none
      | some (ps, c2) => some (p :: ps, c2)

/-- Physical indices of the list, front to back. -/
def order (c : KeySlotCache) : List Int :=
  c.m_mru_list.map KeySlotCacheEntry.GetPhysicalKeySlotIndex

/-- A call of one of the four run-time members, with its argument. -/
inductive Call where
  | Allocate (virtual_slot : Int)
  | Find (virtual_slot : Int)
  | Release (virtual_slot : Int)
  | FindPhysical (physical_slot : Int)
deriving DecidableEq

/-- One call on the cache: the physical index it hands back, when it hands one
back (`Allocate` always, `Find` and `Release` when they report found), and the
cache after it; `none` when the call aborts. -/
def call (c : KeySlotCache) : Call → Option (Option Int × KeySlotCache)
  | Call.Allocate v => (c.Allocate v).map (fun r => (some r.1, r.2))
  | Call.Find v => some (c.Find v)
  | Call.Release v => some (c.Release v)
  | Call.FindPhysical p => (c.FindPhysical p).map (fun r => (none, r.2))

/-- A sequence of calls, in order: the physical indices handed back along the
way and the final cache; `none` when one of the calls aborts. -/
def calls (c : KeySlotCache) : List Call → Option (List Int × KeySlotCache)
  | [] => some ([], c)
  | op :: ops =>
    match c.call op with
    | none => none
    | some (r, c1) =>
      match calls c1 ops with
      | none => none
      | some (rs, c2) => some (r.toList ++ rs, c2)

/-- No two entries are bound to the same virtual slot: the virtual slots of
the entries, those equal to `-1` (unbound) left out, are pairwise distinct. -/
def Injective (c : KeySlotCache) : Prop :=
  ((c.m_mru_list.map KeySlotCacheEntry.GetVirtualKeySlotIndex).filter
    (fun v => v != -1)).Nodup

instance (c : KeySlotCache) : Decidable (Injective c) := by
  unfold Injective; exact inferInstance

end KeySlotCache

open KeySlotCache KeySlotCacheEntry

/-! ## Lists: the position just after a prefix -/

theorem getElem?_at_split {α : Type} (pre post : List α) (e : α) :
    (pre ++ e :: post)[pre.length]? = some e := by
  induction pre with
  | nil => simp
  | cons x xs ih => simpa using ih

theorem eraseIdx_at_split {α : Type} (pre post : List α) (e : α) :
    (pre ++ e :: post).eraseIdx pre.length = pre ++ post := by
  induction pre with
  | nil => simp
  | cons x xs ih => simpa using ih

theorem set_at_split {α : Type} (pre post : List α) (e x : α) :
    (pre ++ e :: post).set pre.length x = pre ++ x :: post := by
  induction pre with
  | nil => simp
  | cons y ys ih => simp [ih]

/-- A list with an element satisfying `p` splits at the first such element. -/
theorem exists_first_split {α : Type} (p : α → Bool) :
    ∀ l : List α, (∃ x ∈ l, p x = true) →
      ∃ pre e post, l = pre ++ e :: post ∧ (∀ x ∈ pre, p x = false) ∧ p e = true
  | [], h => by simp at h
  | a :: l, h => by
    by_cases ha : p a = true
    · exact ⟨[], a, l, by simp, by simp, ha⟩
    · have hl : ∃ x ∈ l, p x = true := by
        obtain ⟨x, hx, hpx⟩ := h
        rcases List.mem_cons.mp hx with rfl | hx
        · exact absurd hpx ha
        · exact ⟨x, hx, hpx⟩
      obtain ⟨pre, e, post, rfl, hpre, he⟩ := exists_first_split p l hl
      refine ⟨a :: pre, e, post, by simp, ?_, he⟩
      intro x hx
      rcases List.mem_cons.mp hx with rfl | hx
      · simpa using ha
      · exact hpre x hx

/-! ## Entries -/

theorem Contains_iff (e : KeySlotCacheEntry) (v : Int) :
    e.Contains v = true ↔ e.m_virtual_slot = v := by
  unfold KeySlotCacheEntry.Contains
  constructor
  · intro h; exact (of_decide_eq_true h).symm
  · intro h; exact decide_eq_true h.symm

theorem Contains_false_iff (e : KeySlotCacheEntry) (v : Int) :
    e.Contains v = false ↔ e.m_virtual_slot ≠ v := by
  rw [Ne, ← Contains_iff, Bool.not_eq_true]

/-! ## The two moves -/

theorem UpdateMru_at_split (c : KeySlotCache) (pre post : List KeySlotCacheEntry)
    (e : KeySlotCacheEntry) (h : c.m_mru_list = pre ++ e :: post) :
    c.UpdateMru pre.length = ⟨e :: (pre ++ post)⟩ := by
  unfold UpdateMru
  rw [h, getElem?_at_split, eraseIdx_at_split]

theorem UpdateLru_at_split (c : KeySlotCache) (pre post : List KeySlotCacheEntry)
    (e : KeySlotCacheEntry) (h : c.m_mru_list = pre ++ e :: post) :
    c.UpdateLru pre.length = ⟨pre ++ post ++ [e]⟩ := by
  unfold UpdateLru
  rw [h, getElem?_at_split, eraseIdx_at_split]

/-! ## The scans of `Find` and `Release` -/

theorem FindLoop_miss (c : KeySlotCache) (v : Int) :
    ∀ (rest : List KeySlotCacheEntry) (it : Nat),
      (∀ x ∈ rest, x.Contains v = false) → FindLoop c v it rest = (none, c)
  | [], _, _ => rfl
  | e :: rest, it, h => by
    have he : e.Contains v = false := h e (by simp)
    simp only [FindLoop, he, Bool.false_eq_true, if_false]
    exact FindLoop_miss c v rest (it + 1) (fun x hx => h x (by simp [hx]))

theorem FindLoop_hit (c : KeySlotCache) (v : Int) (e : KeySlotCacheEntry)
    (post : List KeySlotCacheEntry) (he : e.Contains v = true) :
    ∀ (mid pre : List KeySlotCacheEntry),
      c.m_mru_list = pre ++ (mid ++ e :: post) → (∀ x ∈ mid, x.Contains v = false) →
      FindLoop c v pre.length (mid ++ e :: post)
        = (some e.m_slot_index, ⟨e :: (pre ++ mid ++ post)⟩)
  | [], pre, hc, _ => by
    simp only [List.nil_append, FindLoop, he, if_true, GetPhysicalKeySlotIndex]
    rw [UpdateMru_at_split c pre post e (by simpa using hc)]
    simp
  | a :: mid, pre, hc, hmid => by
    have ha : a.Contains v = false := hmid a (by simp)
    simp only [List.cons_append, FindLoop, ha, Bool.false_eq_true, if_false]
    have := FindLoop_hit c v e post he mid (pre ++ [a]) (by simpa using hc)
      (fun x hx => hmid x (by simp [hx]))
    simpa using this

theorem ReleaseLoop_miss (c : KeySlotCache) (v : Int) :
    ∀ (rest : List KeySlotCacheEntry) (it : Nat),
      (∀ x ∈ rest, x.Contains v = false) → ReleaseLoop c v it rest = (none, c)
  | [], _, _ => rfl
  | e :: rest, it, h => by
    have he : e.Contains v = false := h e (by simp)
    simp only [ReleaseLoop, he, Bool.false_eq_true, if_false]
    exact ReleaseLoop_miss c v rest (it + 1) (fun x hx => h x (by simp [hx]))

theorem ReleaseLoop_hit (c : KeySlotCache) (v : Int) (e : KeySlotCacheEntry)
    (post : List KeySlotCacheEntry) (he : e.Contains v = true) :
    ∀ (mid pre : List KeySlotCacheEntry),
      c.m_mru_list = pre ++ (mid ++ e :: post) → (∀ x ∈ mid, x.Contains v = false) →
      ReleaseLoop c v pre.length (mid ++ e :: post)
        = (some e.m_slot_index, ⟨pre ++ mid ++ post ++ [⟨e.m_slot_index, -1⟩]⟩)
  | [], pre, hc, _ => by
    simp only [List.nil_append, ReleaseLoop, he, if_true, GetPhysicalKeySlotIndex]
    have hc1 : c.m_mru_list = pre ++ e :: post := by simpa using hc
    rw [UpdateLru_at_split ⟨c.m_mru_list.set pre.length e.ClearVirtualSlot⟩ pre post
      e.ClearVirtualSlot (by simp [hc1, set_at_split])]
    simp [ClearVirtualSlot]
  | a :: mid, pre, hc, hmid => by
    have ha : a.Contains v = false := hmid a (by simp)
    simp only [List.cons_append, ReleaseLoop, ha, Bool.false_eq_true, if_false]
    have := ReleaseLoop_hit c v e post he mid (pre ++ [a]) (by simpa using hc)
      (fun x hx => hmid x (by simp [hx]))
    simpa using this

theorem Find_miss (c : KeySlotCache) (v : Int)
    (h : ∀ x ∈ c.m_mru_list, x.Contains v = false) : c.Find v = (none, c) :=
  FindLoop_miss c v c.m_mru_list 0 h

theorem Find_hit (pre post : List KeySlotCacheEntry) (e : KeySlotCacheEntry) (v : Int)
    (hpre : ∀ x ∈ pre, x.Contains v = false) (he : e.Contains v = true) :
    Find ⟨pre ++ e :: post⟩ v = (some e.m_slot_index, ⟨e :: (pre ++ post)⟩) := by
  have := FindLoop_hit ⟨pre ++ e :: post⟩ v e post he pre [] (by simp) hpre
  simpa [Find] using this

theorem Release_miss (c : KeySlotCache) (v : Int)
    (h : ∀ x ∈ c.m_mru_list, x.Contains v = false) : c.Release v = (none, c) :=
  ReleaseLoop_miss c v c.m_mru_list 0 h

theorem Release_hit (pre post : List KeySlotCacheEntry) (e : KeySlotCacheEntry) (v : Int)
    (hpre : ∀ x ∈ pre, x.Contains v = false) (he : e.Contains v = true) :
    Release ⟨pre ++ e :: post⟩ v
      = (some e.m_slot_index, ⟨pre ++ post ++ [⟨e.m_slot_index, -1⟩]⟩) := by
  have := ReleaseLoop_hit ⟨pre ++ e :: post⟩ v e post he pre [] (by simp) hpre
  simpa [Release] using this

theorem Allocate_concat (others : List KeySlotCacheEntry) (last : KeySlotCacheEntry)
    (v : Int) :
    Allocate ⟨others ++ [last]⟩ v
      = some (last.m_slot_index, ⟨⟨last.m_slot_index, v⟩ :: others⟩) := by
  simp [Allocate, AllocateFromLru, SetVirtualSlot, GetPhysicalKeySlotIndex]

/-- The entries of a cache either all miss `v`, or split at the first that
contains it. -/
theorem miss_or_first_match (l : List KeySlotCacheEntry) (v : Int) :
    (∀ x ∈ l, x.Contains v = false) ∨
    ∃ pre e post, l = pre ++ e :: post ∧ (∀ x ∈ pre, x.Contains v = false) ∧
      e.Contains v = true := by
  by_cases h : ∃ x ∈ l, x.Contains v = true
  · exact Or.inr (exists_first_split (fun x => x.Contains v) l h)
  · left
    intro x hx
    by_contra hcon
    exact h ⟨x, hx, by simpa using hcon⟩

theorem Find_fst_none_iff (c : KeySlotCache) (v : Int) :
    (c.Find v).1 = none ↔ ∀ x ∈ c.m_mru_list, x.Contains v = false := by
  constructor
  · intro hnone
    rcases miss_or_first_match c.m_mru_list v with h | ⟨pre, e, post, hl, hpre, he⟩
    · exact h
    · have hc : c = ⟨pre ++ e :: post⟩ := by rw [← hl]
      rw [hc, Find_hit pre post e v hpre he] at hnone
      exact absurd hnone (Option.some_ne_none _)
  · intro hall
    rw [Find_miss c v hall]

/-- What a `Release` that reports found did. -/
theorem Release_found_split (c c1 : KeySlotCache) (v p : Int)
    (h : c.Release v = (some p, c1)) :
    ∃ pre e post, c.m_mru_list = pre ++ e :: post ∧ (∀ x ∈ pre, x.Contains v = false) ∧
      e.Contains v = true ∧ p = e.m_slot_index ∧
      c1 = ⟨pre ++ post ++ [⟨e.m_slot_index, -1⟩]⟩ := by
  rcases miss_or_first_match c.m_mru_list v with hm | ⟨pre, e, post, hl, hpre, he⟩
  · rw [Release_miss c v hm] at h
    exact absurd (congrArg Prod.fst h).symm (Option.some_ne_none _)
  · have hc : c = ⟨pre ++ e :: post⟩ := by rw [← hl]
    rw [hc, Release_hit pre post e v hpre he] at h
    refine ⟨pre, e, post, hl, hpre, he, ?_, ?_⟩
    · exact (Option.some.inj (congrArg Prod.fst h)).symm
    · exact (congrArg Prod.snd h).symm

/-- What a `Find` that reports found did. -/
theorem Find_found_split (c c1 : KeySlotCache) (v p : Int)
    (h : c.Find v = (some p, c1)) :
    ∃ pre e post, c.m_mru_list = pre ++ e :: post ∧ (∀ x ∈ pre, x.Contains v = false) ∧
      e.Contains v = true ∧ p = e.m_slot_index ∧ c1 = ⟨e :: (pre ++ post)⟩ := by
  rcases miss_or_first_match c.m_mru_list v with hm | ⟨pre, e, post, hl, hpre, he⟩
  · rw [Find_miss c v hm] at h
    exact absurd (congrArg Prod.fst h).symm (Option.some_ne_none _)
  · have hc : c = ⟨pre ++ e :: post⟩ := by rw [← hl]
    rw [hc, Find_hit pre post e v hpre he] at h
    refine ⟨pre, e, post, hl, hpre, he, ?_, ?_⟩
    · exact (Option.some.inj (congrArg Prod.fst h)).symm
    · exact (congrArg Prod.snd h).symm

/-! ## Registration and runs of `Allocate` -/

theorem foldl_AddEntry (idxs : List Int) :
    ∀ c : KeySlotCache,
      idxs.foldl (fun c idx => c.AddEntry (KeySlotCacheEntry.new idx)) c
        = ⟨(idxs.map KeySlotCacheEntry.new).reverse ++ c.m_mru_list⟩ := by
  induction idxs with
  | nil => intro c; rfl
  | cons i is ih =>
    intro c
    rw [List.foldl_cons, ih]
    simp [AddEntry]

/-- Registering fresh entries leaves them in the reverse of the order of
registration. -/
theorem registerFresh_eq (idxs : List Int) :
    registerFresh idxs = ⟨(idxs.map KeySlotCacheEntry.new).reverse⟩ := by
  unfold registerFresh
  rw [foldl_AddEntry]
  simp [empty]

/-- As many `Allocate` calls as there are entries in the back part of the list
hand these out from the last one on, and leave them in front of the others. -/
theorem AllocateEach_back :
    ∀ (rback : List KeySlotCacheEntry) (vs : List Int) (front : List KeySlotCacheEntry),
      rback.length = vs.length →
      AllocateEach ⟨front ++ rback.reverse⟩ vs
        = some (rback.map KeySlotCacheEntry.GetPhysicalKeySlotIndex,
            ⟨(List.zipWith (fun e v => KeySlotCacheEntry.mk e.m_slot_index v) rback vs).reverse
              ++ front⟩)
  | [], [], front, _ => by simp [AllocateEach]
  | [], _ :: _, _, h => by simp at h
  | _ :: _, [], _, h => by simp at h
  | t :: rback, v :: vs, front, h => by
    have hlen : rback.length = vs.length := by simpa using h
    have hstep : Allocate ⟨front ++ (t :: rback).reverse⟩ v
        = some (t.m_slot_index, ⟨(⟨t.m_slot_index, v⟩ :: front) ++ rback.reverse⟩) := by
      have := Allocate_concat (front ++ rback.reverse) t v
      simpa using this
    have ih := AllocateEach_back rback vs (⟨t.m_slot_index, v⟩ :: front) hlen
    simp only [AllocateEach, hstep, ih]
    simp [GetPhysicalKeySlotIndex]

/-! ## `Allocate` -/

/-- C1: on a non-empty cache `Allocate v` returns the physical index of the
entry that was last in the ordering; afterwards that entry is first, bound to
`v`, and the other entries follow it with their bindings and in their previous
order. -/
theorem Allocate_rebinds_tail (c : KeySlotCache) (v : Int) (h : c.m_mru_list ≠ []) :
    ∃ others tail, c.m_mru_list = others ++ [tail] ∧
      c.Allocate v
        = some (tail.GetPhysicalKeySlotIndex, ⟨⟨tail.m_slot_index, v⟩ :: others⟩) := by
  refine ⟨c.m_mru_list.dropLast, c.m_mru_list.getLast h, ?_, ?_⟩
  · exact (List.dropLast_concat_getLast h).symm
  · have hc : c = ⟨c.m_mru_list.dropLast ++ [c.m_mru_list.getLast h]⟩ := by
      rw [List.dropLast_concat_getLast h]
    conv => lhs; rw [hc]
    exact Allocate_concat _ _ v

theorem Allocate_rebinds_tail_witness :
    (registerFresh [0, 1, 2]).m_mru_list ≠ [] ∧
    ∃ others tail, (registerFresh [0, 1, 2]).m_mru_list = others ++ [tail] ∧
      (registerFresh [0, 1, 2]).Allocate 100
        = some (tail.GetPhysicalKeySlotIndex, ⟨⟨tail.m_slot_index, 100⟩ :: others⟩) :=
  ⟨by decide, Allocate_rebinds_tail (registerFresh [0, 1, 2]) 100 (by decide)⟩

/-! ## `Find` -/

/-- C2: when some entry contains `v`, `Find v` reports found with the physical
index of the first such entry from the front; afterwards that entry is first,
the others follow in their previous order, and every binding is as before. -/
theorem Find_promotes_first_match (c : KeySlotCache) (v : Int)
    (h : ∃ x ∈ c.m_mru_list, x.Contains v = true) :
    ∃ pre e post, c.m_mru_list = pre ++ e :: post ∧
      (∀ x ∈ pre, x.Contains v = false) ∧ e.Contains v = true ∧
      c.Find v = (some e.GetPhysicalKeySlotIndex, ⟨e :: (pre ++ post)⟩) := by
  obtain ⟨pre, e, post, hl, hpre, he⟩ := exists_first_split (fun x => x.Contains v) _ h
  refine ⟨pre, e, post, hl, hpre, he, ?_⟩
  have hc : c = ⟨pre ++ e :: post⟩ := by rw [← hl]
  rw [hc]
  exact Find_hit pre post e v hpre he

theorem Find_promotes_first_match_witness :
    (∃ x ∈ (KeySlotCache.mk [⟨0, 7⟩, ⟨1, 9⟩, ⟨2, 9⟩]).m_mru_list, x.Contains 9 = true) ∧
    ∃ pre e post, (KeySlotCache.mk [⟨0, 7⟩, ⟨1, 9⟩, ⟨2, 9⟩]).m_mru_list = pre ++ e :: post ∧
      (∀ x ∈ pre, x.Contains 9 = false) ∧ e.Contains 9 = true ∧
      (KeySlotCache.mk [⟨0, 7⟩, ⟨1, 9⟩, ⟨2, 9⟩]).Find 9
        = (some e.GetPhysicalKeySlotIndex, ⟨e :: (pre ++ post)⟩) :=
  ⟨by decide, Find_promotes_first_match _ 9 (by decide)⟩

/-- C3: `Find v` reports not found exactly when `Contains v` is false for every
entry, and then the cache is the one before the call. -/
theorem Find_not_found_iff (c : KeySlotCache) (v : Int) :
    ((c.Find v).1 = none ↔ ∀ x ∈ c.m_mru_list, x.Contains v = false) ∧
    ((c.Find v).1 = none → (c.Find v).2 = c) := by
  refine ⟨Find_fst_none_iff c v, fun hnone => ?_⟩
  rw [Find_miss c v ((Find_fst_none_iff c v).mp hnone)]

/-! ## `Release` -/

/-- C4: when some entry contains `v`, `Release v` reports found with the
physical index of the first such entry from the front; afterwards that entry is
unbound and last, and the others keep their bindings and their order. -/
theorem Release_demotes_first_match (c : KeySlotCache) (v : Int)
    (h : ∃ x ∈ c.m_mru_list, x.Contains v = true) :
    ∃ pre e post, c.m_mru_list = pre ++ e :: post ∧
      (∀ x ∈ pre, x.Contains v = false) ∧ e.Contains v = true ∧
      c.Release v
        = (some e.GetPhysicalKeySlotIndex, ⟨pre ++ post ++ [⟨e.m_slot_index, -1⟩]⟩) := by
  obtain ⟨pre, e, post, hl, hpre, he⟩ := exists_first_split (fun x => x.Contains v) _ h
  refine ⟨pre, e, post, hl, hpre, he, ?_⟩
  have hc : c = ⟨pre ++ e :: post⟩ := by rw [← hl]
  rw [hc]
  exact Release_hit pre post e v hpre he

theorem Release_demotes_first_match_witness :
    (∃ x ∈ (KeySlotCache.mk [⟨0, 7⟩, ⟨1, 9⟩, ⟨2, 9⟩]).m_mru_list, x.Contains 9 = true) ∧
    ∃ pre e post, (KeySlotCache.mk [⟨0, 7⟩, ⟨1, 9⟩, ⟨2, 9⟩]).m_mru_list = pre ++ e :: post ∧
      (∀ x ∈ pre, x.Contains 9 = false) ∧ e.Contains 9 = true ∧
      (KeySlotCache.mk [⟨0, 7⟩, ⟨1, 9⟩, ⟨2, 9⟩]).Release 9
        = (some e.GetPhysicalKeySlotIndex, ⟨pre ++ post ++ [⟨e.m_slot_index, -1⟩]⟩) :=
  ⟨by decide, Release_demotes_first_match _ 9 (by decide)⟩

/-- C5, as stated, fails at `v = -1`: `-1` is an `s32`, the one entry of the
freshly registered cache is unbound, and `Release (-1)` reports found with
physical index 0. -/
theorem Release_sentinel_on_unbound_found :
    IsS32 (-1) ∧
    (∀ x ∈ (registerFresh [0]).m_mru_list,
      x.GetVirtualKeySlotIndex = -1 ∨ x.GetVirtualKeySlotIndex ≠ -1) ∧
    (∀ x ∈ (registerFresh [0]).m_mru_list, x.GetVirtualKeySlotIndex = -1) ∧
    (registerFresh [0]).Release (-1) = (some 0, registerFresh [0]) := by
  decide

/-- C5, amended: for `v` other than `-1`, if every entry is unbound or bound to
an identifier other than `v`, `Release v` reports not found and returns the
cache unchanged; and on a cache whose entries are all unbound `Release w`
reports not found for every `w` other than `-1`. -/
theorem Release_not_found_of_no_binding (c : KeySlotCache) (v : Int) (hv : v ≠ -1)
    (h : ∀ x ∈ c.m_mru_list, x.GetVirtualKeySlotIndex = -1 ∨ x.GetVirtualKeySlotIndex ≠ v) :
    c.Release v = (none, c) ∧
    ((∀ x ∈ c.m_mru_list, x.GetVirtualKeySlotIndex = -1) →
      ∀ w : Int, w ≠ -1 → c.Release w = (none, c)) := by
  have main : ∀ w : Int, w ≠ -1 →
      (∀ x ∈ c.m_mru_list, x.GetVirtualKeySlotIndex = -1 ∨ x.GetVirtualKeySlotIndex ≠ w) →
      c.Release w = (none, c) := by
    intro w hw hall
    apply Release_miss
    intro x hx
    rw [Contains_false_iff]
    rcases hall x hx with h1 | h1
    · intro h2
      exact hw (by rw [← h2]; exact h1)
    · exact h1
  exact ⟨main v hv h, fun hu w hw => main w hw (fun x hx => Or.inl (hu x hx))⟩

theorem Release_not_found_of_no_binding_witness :
    (7 : Int) ≠ -1 ∧
    (∀ x ∈ (registerFresh [0, 1, 2]).m_mru_list,
      x.GetVirtualKeySlotIndex = -1 ∨ x.GetVirtualKeySlotIndex ≠ 7) ∧
    (registerFresh [0, 1, 2]).Release 7 = (none, registerFresh [0, 1, 2]) ∧
    ∀ w : Int, w ≠ -1 → (registerFresh [0, 1, 2]).Release w = (none, registerFresh [0, 1, 2]) :=
  ⟨by decide, by decide,
    (Release_not_found_of_no_binding (registerFresh [0, 1, 2]) 7 (by decide) (by decide)).1,
    (Release_not_found_of_no_binding (registerFresh [0, 1, 2]) 7 (by decide) (by decide)).2
      (by decide)⟩

/-! ## Sequences of calls -/

/-- C6, as stated, fails in two ways.  On the cache reached by registering
entries 0 and 1 and calling `Allocate 5` once, `Allocate 5` returns 1, `Find 5`
and `Release 5` report found with 1, and the last `Find 5` reports found with 0
(the entry bound to 5 by the earlier call).  With `v = -1` on a single fresh
entry the last `Find (-1)` reports found with 0. -/
theorem round_trip_last_Find_found :
    ((registerFresh [0, 1]).Allocate 5 = some (0, ⟨[⟨0, 5⟩, ⟨1, -1⟩]⟩) ∧
      Allocate ⟨[⟨0, 5⟩, ⟨1, -1⟩]⟩ 5 = some (1, ⟨[⟨1, 5⟩, ⟨0, 5⟩]⟩) ∧
      Find ⟨[⟨1, 5⟩, ⟨0, 5⟩]⟩ 5 = (some 1, ⟨[⟨1, 5⟩, ⟨0, 5⟩]⟩) ∧
      Release ⟨[⟨1, 5⟩, ⟨0, 5⟩]⟩ 5 = (some 1, ⟨[⟨0, 5⟩, ⟨1, -1⟩]⟩) ∧
      Find ⟨[⟨0, 5⟩, ⟨1, -1⟩]⟩ 5 = (some 0, ⟨[⟨0, 5⟩, ⟨1, -1⟩]⟩)) ∧
    ((registerFresh [0]).Allocate (-1) = some (0, ⟨[⟨0, -1⟩]⟩) ∧
      Find ⟨[⟨0, -1⟩]⟩ (-1) = (some 0, ⟨[⟨0, -1⟩]⟩) ∧
      Release ⟨[⟨0, -1⟩]⟩ (-1) = (some 0, ⟨[⟨0, -1⟩]⟩) ∧
      Find ⟨[⟨0, -1⟩]⟩ (-1) = (some 0, ⟨[⟨0, -1⟩]⟩)) := by
  decide

/-- C6, amended: on a non-empty cache `Allocate v` returns some `p`; the
following `Find v` reports found with `p` and leaves the cache as it is; the
following `Release v` reports found with `p`; and the `Find v` after that
reports not found exactly when `v` is not `-1` and no entry other than the one
that was last before `Allocate` was bound to `v`. -/
theorem round_trip (c : KeySlotCache) (v : Int) (h : c.m_mru_list ≠ []) :
    ∃ p c1 c2, c.Allocate v = some (p, c1) ∧ c1.Find v = (some p, c1) ∧
      c1.Release v = (some p, c2) ∧
      ((c2.Find v).1 = none ↔
        (v ≠ -1 ∧ ∀ x ∈ c.m_mru_list.dropLast, x.GetVirtualKeySlotIndex ≠ v)) := by
  have hc : c = ⟨c.m_mru_list.dropLast ++ [c.m_mru_list.getLast h]⟩ := by
    rw [List.dropLast_concat_getLast h]
  generalize c.m_mru_list.dropLast = others at hc
  generalize c.m_mru_list.getLast h = tail at hc
  have hbound : (KeySlotCacheEntry.mk tail.m_slot_index v).Contains v = true := by
    rw [Contains_iff]
  refine ⟨tail.m_slot_index, ⟨⟨tail.m_slot_index, v⟩ :: others⟩,
    ⟨others ++ [⟨tail.m_slot_index, -1⟩]⟩, ?_, ?_, ?_, ?_⟩
  · rw [hc]; exact Allocate_concat others tail v
  · have := Find_hit [] others ⟨tail.m_slot_index, v⟩ v (by simp) hbound
    simpa using this
  · have := Release_hit [] others ⟨tail.m_slot_index, v⟩ v (by simp) hbound
    simpa using this
  · rw [Find_fst_none_iff]
    simp only [List.mem_append, List.mem_singleton, Contains_false_iff,
      GetVirtualKeySlotIndex]
    constructor
    · intro hall
      exact ⟨fun hv => hall ⟨tail.m_slot_index, -1⟩ (Or.inr rfl) hv.symm,
        fun x hx => hall x (Or.inl hx)⟩
    · rintro ⟨hv, hall⟩ x (hx | rfl)
      · exact hall x hx
      · exact fun hx => hv hx.symm

theorem round_trip_witness :
    (registerFresh [0, 1, 2]).m_mru_list ≠ [] ∧
    ∃ p c1 c2, (registerFresh [0, 1, 2]).Allocate 100 = some (p, c1) ∧
      c1.Find 100 = (some p, c1) ∧ c1.Release 100 = (some p, c2) ∧
      ((c2.Find 100).1 = none ↔
        ((100 : Int) ≠ -1 ∧
          ∀ x ∈ (registerFresh [0, 1, 2]).m_mru_list.dropLast,
            x.GetVirtualKeySlotIndex ≠ 100)) :=
  ⟨by decide, round_trip (registerFresh [0, 1, 2]) 100 (by decide)⟩

/-- C7: when `Release v` reports found with `p`, the next `Allocate w` returns
`p`, for every `w`: it rebinds the entry just released, which it finds last. -/
theorem Release_then_Allocate (c c1 : KeySlotCache) (v p : Int)
    (h : c.Release v = (some p, c1)) (w : Int) :
    ∃ c2, c1.Allocate w = some (p, c2) ∧ c2.m_mru_list.head? = some ⟨p, w⟩ ∧
      c2.m_mru_list.tail = c1.m_mru_list.dropLast := by
  obtain ⟨pre, e, post, -, -, -, hp, hc1⟩ := Release_found_split c c1 v p h
  subst hp hc1
  exact ⟨_, Allocate_concat (pre ++ post) ⟨e.m_slot_index, -1⟩ w, by simp, by simp⟩

theorem Release_then_Allocate_witness :
    Release ⟨[⟨0, 10⟩, ⟨1, 20⟩, ⟨2, 30⟩]⟩ 20 = (some 1, ⟨[⟨0, 10⟩, ⟨2, 30⟩, ⟨1, -1⟩]⟩) ∧
    ∃ c2, Allocate ⟨[⟨0, 10⟩, ⟨2, 30⟩, ⟨1, -1⟩]⟩ 40 = some (1, c2) ∧
      c2.m_mru_list.head? = some ⟨1, 40⟩ ∧
      c2.m_mru_list.tail = (KeySlotCache.mk [⟨0, 10⟩, ⟨2, 30⟩, ⟨1, -1⟩]).m_mru_list.dropLast :=
  ⟨by decide, Release_then_Allocate ⟨[⟨0, 10⟩, ⟨1, 20⟩, ⟨2, 30⟩]⟩ _ 20 1 (by decide) 40⟩

/-- C8: on a cache of exactly two entries `a`, `b` and for `v1 ≠ v2`,
`Allocate v1` returns the index `p1` of `b`, `Allocate v2` returns the index
`p2` of `a`, `Find v1` reports found with `p1`, and `Allocate v3` then returns
`p2`, leaving the entry of `p1` bound to `v1`. -/
theorem promotion_protects (a b : KeySlotCacheEntry) (v1 v2 v3 : Int) (h : v1 ≠ v2) :
    Allocate ⟨[a, b]⟩ v1 = some (b.m_slot_index, ⟨[⟨b.m_slot_index, v1⟩, a]⟩) ∧
    Allocate ⟨[⟨b.m_slot_index, v1⟩, a]⟩ v2
      = some (a.m_slot_index, ⟨[⟨a.m_slot_index, v2⟩, ⟨b.m_slot_index, v1⟩]⟩) ∧
    Find ⟨[⟨a.m_slot_index, v2⟩, ⟨b.m_slot_index, v1⟩]⟩ v1
      = (some b.m_slot_index, ⟨[⟨b.m_slot_index, v1⟩, ⟨a.m_slot_index, v2⟩]⟩) ∧
    Allocate ⟨[⟨b.m_slot_index, v1⟩, ⟨a.m_slot_index, v2⟩]⟩ v3
      = some (a.m_slot_index, ⟨[⟨a.m_slot_index, v3⟩, ⟨b.m_slot_index, v1⟩]⟩) := by
  refine ⟨Allocate_concat [a] b v1, Allocate_concat [⟨b.m_slot_index, v1⟩] a v2, ?_,
    Allocate_concat [⟨b.m_slot_index, v1⟩] ⟨a.m_slot_index, v2⟩ v3⟩
  have := Find_hit [⟨a.m_slot_index, v2⟩] [] ⟨b.m_slot_index, v1⟩ v1
    (by
      intro x hx
      rw [List.mem_singleton] at hx
      subst hx
      rw [Contains_false_iff]
      exact fun h2 => h h2.symm)
    (by rw [Contains_iff])
  simpa using this

theorem promotion_protects_witness :
    (100 : Int) ≠ 200 ∧
    Allocate ⟨[⟨0, -1⟩, ⟨1, -1⟩]⟩ 100 = some (1, ⟨[⟨1, 100⟩, ⟨0, -1⟩]⟩) ∧
    Allocate ⟨[⟨1, 100⟩, ⟨0, -1⟩]⟩ 200 = some (0, ⟨[⟨0, 200⟩, ⟨1, 100⟩]⟩) ∧
    Find ⟨[⟨0, 200⟩, ⟨1, 100⟩]⟩ 100 = (some 1, ⟨[⟨1, 100⟩, ⟨0, 200⟩]⟩) ∧
    Allocate ⟨[⟨1, 100⟩, ⟨0, 200⟩]⟩ 300 = some (0, ⟨[⟨0, 300⟩, ⟨1, 100⟩]⟩) :=
  ⟨by decide, promotion_protects ⟨0, -1⟩ ⟨1, -1⟩ 100 200 300 (by decide)⟩

/-- C9, as stated, fails for `N = 2`: after registering entries 0 and 1 in that
order the ordering is 1, 0, and two `Allocate` calls with the distinct ids 10
and 20 return 0 and then 1, not 1 and then 0. -/
theorem initial_eviction_order_two :
    [(10 : Int), 20].Nodup ∧
    (registerFresh [0, 1]).order = [1, 0] ∧
    ((registerFresh [0, 1]).AllocateEach [10, 20]).map Prod.fst = some [0, 1] ∧
    ((registerFresh [0, 1]).AllocateEach [10, 20]).map Prod.fst ≠ some [1, 0] := by
  decide

/-- C9, amended: after registering `N` fresh entries with physical indices
0, 1, ..., N-1 in that order into an empty cache, `N` consecutive `Allocate`
calls return the physical indices 0, 1, ..., N-1 in that order (the order of
registration), whatever the virtual ids. -/
theorem initial_eviction_order (N : Nat) (vs : List Int) (h : vs.length = N) :
    ((registerFresh ((List.range N).map Int.ofNat)).AllocateEach vs).map Prod.fst
      = some ((List.range N).map Int.ofNat) := by
  have hlen : ((List.range N).map Int.ofNat |>.map KeySlotCacheEntry.new).length = vs.length := by
    simp [h]
  have := AllocateEach_back _ vs [] hlen
  rw [registerFresh_eq]
  simp only [List.nil_append] at this
  rw [this]
  simp [GetPhysicalKeySlotIndex, KeySlotCacheEntry.new, Function.comp_def]

theorem initial_eviction_order_witness :
    [(10 : Int), 20, 30].length = 3 ∧
    ((registerFresh ((List.range 3).map Int.ofNat)).AllocateEach [10, 20, 30]).map Prod.fst
      = some ((List.range 3).map Int.ofNat) :=
  ⟨by decide, initial_eviction_order 3 [10, 20, 30] (by decide)⟩

/-- C10, as stated, fails at its first step: after registering entries 0, 1, 2
in that order the ordering is 2, 1, 0, not 0, 1, 2, and `Allocate 100` returns
0, not 2. -/
theorem scenario_registration_order :
    (registerFresh [0, 1, 2]).order = [2, 1, 0] ∧
    (registerFresh [0, 1, 2]).order ≠ [0, 1, 2] ∧
    ((registerFresh [0, 1, 2]).Allocate 100).map Prod.fst = some 0 ∧
    ((registerFresh [0, 1, 2]).Allocate 100).map Prod.fst ≠ some 2 := by
  decide

/-- C10, amended.  Registering entries 2, 1, 0 in that order gives the ordering
0, 1, 2, from which `Allocate 100`, `Allocate 200`, `Find 100`, `Release 100`,
`Allocate 300` return 2, 1, found 2, found 2, 2 with orderings 2,0,1 then 1,2,0
then 2,1,0 then 1,0,2.  Registering 0, 1, 2 in that order gives the ordering
2, 1, 0, from which the same calls return 0, 1, found 0, found 0, 0 with
orderings 0,2,1 then 1,0,2 then 0,1,2 then 1,2,0. -/
theorem scenario_three_slots :
    ((registerFresh [2, 1, 0]) = ⟨[⟨0, -1⟩, ⟨1, -1⟩, ⟨2, -1⟩]⟩ ∧
      Allocate ⟨[⟨0, -1⟩, ⟨1, -1⟩, ⟨2, -1⟩]⟩ 100
        = some (2, ⟨[⟨2, 100⟩, ⟨0, -1⟩, ⟨1, -1⟩]⟩) ∧
      Allocate ⟨[⟨2, 100⟩, ⟨0, -1⟩, ⟨1, -1⟩]⟩ 200
        = some (1, ⟨[⟨1, 200⟩, ⟨2, 100⟩, ⟨0, -1⟩]⟩) ∧
      Find ⟨[⟨1, 200⟩, ⟨2, 100⟩, ⟨0, -1⟩]⟩ 100
        = (some 2, ⟨[⟨2, 100⟩, ⟨1, 200⟩, ⟨0, -1⟩]⟩) ∧
      Release ⟨[⟨2, 100⟩, ⟨1, 200⟩, ⟨0, -1⟩]⟩ 100
        = (some 2, ⟨[⟨1, 200⟩, ⟨0, -1⟩, ⟨2, -1⟩]⟩) ∧
      Allocate ⟨[⟨1, 200⟩, ⟨0, -1⟩, ⟨2, -1⟩]⟩ 300
        = some (2, ⟨[⟨2, 300⟩, ⟨1, 200⟩, ⟨0, -1⟩]⟩)) ∧
    ((registerFresh [0, 1, 2]) = ⟨[⟨2, -1⟩, ⟨1, -1⟩, ⟨0, -1⟩]⟩ ∧
      Allocate ⟨[⟨2, -1⟩, ⟨1, -1⟩, ⟨0, -1⟩]⟩ 100
        = some (0, ⟨[⟨0, 100⟩, ⟨2, -1⟩, ⟨1, -1⟩]⟩) ∧
      Allocate ⟨[⟨0, 100⟩, ⟨2, -1⟩, ⟨1, -1⟩]⟩ 200
        = some (1, ⟨[⟨1, 200⟩, ⟨0, 100⟩, ⟨2, -1⟩]⟩) ∧
      Find ⟨[⟨1, 200⟩, ⟨0, 100⟩, ⟨2, -1⟩]⟩ 100
        = (some 0, ⟨[⟨0, 100⟩, ⟨1, 200⟩, ⟨2, -1⟩]⟩) ∧
      Release ⟨[⟨0, 100⟩, ⟨1, 200⟩, ⟨2, -1⟩]⟩ 100
        = (some 0, ⟨[⟨1, 200⟩, ⟨2, -1⟩, ⟨0, -1⟩]⟩) ∧
      Allocate ⟨[⟨1, 200⟩, ⟨2, -1⟩, ⟨0, -1⟩]⟩ 300
        = some (0, ⟨[⟨0, 300⟩, ⟨1, 200⟩, ⟨2, -1⟩]⟩)) := by
  decide

/-! ## The scan of `FindPhysical` -/

theorem FindPhysicalLoop_miss (c : KeySlotCache) (p : Int) :
    ∀ (rest : List KeySlotCacheEntry) (it : Nat),
      (∀ x ∈ rest, x.m_slot_index ≠ p) → FindPhysicalLoop c p it rest = none
  | [], _, _ => rfl
  | e :: rest, it, h => by
    have he : (e.GetPhysicalKeySlotIndex == p) = false := by
      simpa [GetPhysicalKeySlotIndex] using h e (by simp)
    simp only [FindPhysicalLoop, he, Bool.false_eq_true, if_false]
    exact FindPhysicalLoop_miss c p rest (it + 1) (fun x hx => h x (by simp [hx]))

theorem FindPhysicalLoop_hit (c : KeySlotCache) (p : Int) (e : KeySlotCacheEntry)
    (post : List KeySlotCacheEntry) (he : e.m_slot_index = p) :
    ∀ (mid pre : List KeySlotCacheEntry),
      c.m_mru_list = pre ++ (mid ++ e :: post) → (∀ x ∈ mid, x.m_slot_index ≠ p) →
      FindPhysicalLoop c p pre.length (mid ++ e :: post)
        = if e.m_virtual_slot = p then some (true, ⟨e :: (pre ++ mid ++ post)⟩)
          else some (false, ⟨⟨e.m_slot_index, p⟩ :: (pre ++ mid ++ post)⟩)
  | [], pre, hc, _ => by
    have hidx : (e.GetPhysicalKeySlotIndex == p) = true := by
      simpa [GetPhysicalKeySlotIndex] using he
    simp only [List.nil_append, FindPhysicalLoop, hidx, if_true]
    rw [UpdateMru_at_split c pre post e (by simpa using hc)]
    by_cases hv : e.m_virtual_slot = p
    · simp [GetVirtualKeySlotIndex, hv]
    · simp [GetVirtualKeySlotIndex, hv, SetVirtualSlot]
  | a :: mid, pre, hc, hmid => by
    have ha : (a.GetPhysicalKeySlotIndex == p) = false := by
      simpa [GetPhysicalKeySlotIndex] using hmid a (by simp)
    simp only [List.cons_append, FindPhysicalLoop, ha, Bool.false_eq_true, if_false]
    have := FindPhysicalLoop_hit c p e post he mid (pre ++ [a]) (by simpa using hc)
      (fun x hx => hmid x (by simp [hx]))
    simpa using this

theorem FindPhysical_miss (c : KeySlotCache) (p : Int)
    (h : ∀ x ∈ c.m_mru_list, x.m_slot_index ≠ p) : c.FindPhysical p = none :=
  FindPhysicalLoop_miss c p c.m_mru_list 0 h

theorem FindPhysical_hit (pre post : List KeySlotCacheEntry) (e : KeySlotCacheEntry) (p : Int)
    (hpre : ∀ x ∈ pre, x.m_slot_index ≠ p) (he : e.m_slot_index = p) :
    FindPhysical ⟨pre ++ e :: post⟩ p
      = if e.m_virtual_slot = p then some (true, ⟨e :: (pre ++ post)⟩)
        else some (false, ⟨⟨e.m_slot_index, p⟩ :: (pre ++ post)⟩) := by
  have := FindPhysicalLoop_hit ⟨pre ++ e :: post⟩ p e post he pre [] (by simp) hpre
  simpa [FindPhysical] using this

/-- The entries of a cache either all have another physical index than `p`, or
split at the first that has it. -/
theorem no_index_or_first_index (l : List KeySlotCacheEntry) (p : Int) :
    (∀ x ∈ l, x.m_slot_index ≠ p) ∨
    ∃ pre e post, l = pre ++ e :: post ∧ (∀ x ∈ pre, x.m_slot_index ≠ p) ∧
      e.m_slot_index = p := by
  by_cases h : ∃ x ∈ l, decide (x.m_slot_index = p) = true
  · obtain ⟨pre, e, post, hl, hpre, he⟩ :=
      exists_first_split (fun x => decide (x.m_slot_index = p)) l h
    exact Or.inr ⟨pre, e, post, hl, fun x hx => by simpa using hpre x hx, by simpa using he⟩
  · left
    intro x hx hcon
    exact h ⟨x, hx, by simpa using hcon⟩

/-- What a `FindPhysical` that returns did. -/
theorem FindPhysical_some_split (c c1 : KeySlotCache) (p : Int) (b : Bool)
    (h : c.FindPhysical p = some (b, c1)) :
    ∃ pre e post, c.m_mru_list = pre ++ e :: post ∧ (∀ x ∈ pre, x.m_slot_index ≠ p) ∧
      e.m_slot_index = p ∧
      ((e.m_virtual_slot = p ∧ b = true ∧ c1 = ⟨e :: (pre ++ post)⟩) ∨
       (e.m_virtual_slot ≠ p ∧ b = false ∧ c1 = ⟨⟨e.m_slot_index, p⟩ :: (pre ++ post)⟩)) := by
  rcases no_index_or_first_index c.m_mru_list p with hm | ⟨pre, e, post, hl, hpre, he⟩
  · rw [FindPhysical_miss c p hm] at h
    exact absurd h (by simp)
  · have hc : c = ⟨pre ++ e :: post⟩ := by rw [← hl]
    rw [hc, FindPhysical_hit pre post e p hpre he] at h
    refine ⟨pre, e, post, hl, hpre, he, ?_⟩
    by_cases hv : e.m_virtual_slot = p
    · rw [if_pos hv] at h
      have h2 := Option.some.inj h
      exact Or.inl ⟨hv, (congrArg Prod.fst h2).symm, (congrArg Prod.snd h2).symm⟩
    · rw [if_neg hv] at h
      have h2 := Option.some.inj h
      exact Or.inr ⟨hv, (congrArg Prod.fst h2).symm, (congrArg Prod.snd h2).symm⟩

/-- What an `Allocate` that returns did. -/
theorem Allocate_some_split (c c1 : KeySlotCache) (v p : Int)
    (h : c.Allocate v = some (p, c1)) :
    ∃ others tail, c.m_mru_list = others ++ [tail] ∧ p = tail.m_slot_index ∧
      c1 = ⟨⟨tail.m_slot_index, v⟩ :: others⟩ := by
  by_cases hne : c.m_mru_list = []
  · simp [Allocate, AllocateFromLru, hne] at h
  · have hl : c.m_mru_list.dropLast ++ [c.m_mru_list.getLast hne] = c.m_mru_list :=
      List.dropLast_concat_getLast hne
    have hc : c = ⟨c.m_mru_list.dropLast ++ [c.m_mru_list.getLast hne]⟩ := by rw [hl]
    rw [hc, Allocate_concat] at h
    have h2 := Option.some.inj h
    exact ⟨_, _, hl.symm, (congrArg Prod.fst h2).symm, (congrArg Prod.snd h2).symm⟩

theorem Allocate_isSome (c : KeySlotCache) (v : Int) (h : c.m_mru_list ≠ []) :
    (c.Allocate v).isSome = true := by
  have hc : c = ⟨c.m_mru_list.dropLast ++ [c.m_mru_list.getLast h]⟩ := by
    rw [List.dropLast_concat_getLast h]
  rw [hc, Allocate_concat]
  rfl

/-! ## The physical indices held by the cache -/

theorem order_mk (l : List KeySlotCacheEntry) :
    order ⟨l⟩ = l.map KeySlotCacheEntry.GetPhysicalKeySlotIndex := rfl

theorem order_eq (c : KeySlotCache) (l : List KeySlotCacheEntry) (h : c.m_mru_list = l) :
    c.order = l.map KeySlotCacheEntry.GetPhysicalKeySlotIndex := by
  rw [← h]; rfl

theorem Allocate_order_perm (c c1 : KeySlotCache) (v p : Int)
    (h : c.Allocate v = some (p, c1)) : c1.order.Perm c.order ∧ p ∈ c.order := by
  obtain ⟨others, tail, hl, hp, hc1⟩ := Allocate_some_split c c1 v p h
  subst hc1
  rw [order_eq c _ hl, order_mk, hp]
  constructor
  · simpa [GetPhysicalKeySlotIndex] using
      (List.perm_append_singleton tail.m_slot_index
        (others.map KeySlotCacheEntry.GetPhysicalKeySlotIndex)).symm
  · simp [GetPhysicalKeySlotIndex]

theorem Find_order_perm (c : KeySlotCache) (v : Int) :
    (c.Find v).2.order.Perm c.order ∧ ∀ p, (c.Find v).1 = some p → p ∈ c.order := by
  rcases miss_or_first_match c.m_mru_list v with hm | ⟨pre, e, post, hl, hpre, he⟩
  · rw [Find_miss c v hm]
    exact ⟨List.Perm.refl _, fun p hp => by simp at hp⟩
  · have hc : c = ⟨pre ++ e :: post⟩ := by rw [← hl]
    rw [hc, Find_hit pre post e v hpre he]
    simp only [order_mk, List.map_cons, List.map_append]
    refine ⟨List.perm_middle.symm, fun p hp => ?_⟩
    have : e.m_slot_index = p := Option.some.inj hp
    simp [GetPhysicalKeySlotIndex, this]

theorem Release_order_perm (c : KeySlotCache) (v : Int) :
    (c.Release v).2.order.Perm c.order ∧ ∀ p, (c.Release v).1 = some p → p ∈ c.order := by
  rcases miss_or_first_match c.m_mru_list v with hm | ⟨pre, e, post, hl, hpre, he⟩
  · rw [Release_miss c v hm]
    exact ⟨List.Perm.refl _, fun p hp => by simp at hp⟩
  · have hc : c = ⟨pre ++ e :: post⟩ := by rw [← hl]
    rw [hc, Release_hit pre post e v hpre he]
    simp only [order_mk, List.map_cons, List.map_append, List.map_nil]
    refine ⟨?_, fun p hp => ?_⟩
    · have h1 : (List.map GetPhysicalKeySlotIndex pre ++ List.map GetPhysicalKeySlotIndex post
          ++ [e.m_slot_index]).Perm
          (e.m_slot_index :: (List.map GetPhysicalKeySlotIndex pre
            ++ List.map GetPhysicalKeySlotIndex post)) :=
        List.perm_append_singleton _ _
      exact h1.trans List.perm_middle.symm
    · have : e.m_slot_index = p := Option.some.inj hp
      simp [GetPhysicalKeySlotIndex, this]

theorem FindPhysical_order_perm (c c1 : KeySlotCache) (p : Int) (b : Bool)
    (h : c.FindPhysical p = some (b, c1)) : c1.order.Perm c.order := by
  obtain ⟨pre, e, post, hl, -, -, hcase⟩ := FindPhysical_some_split c c1 p b h
  rw [order_eq c _ hl]
  rcases hcase with ⟨-, -, hc1⟩ | ⟨-, -, hc1⟩ <;> subst hc1 <;>
    simp only [order_mk, List.map_cons, List.map_append] <;>
    exact List.perm_middle.symm

theorem call_order_perm (c c1 : KeySlotCache) (op : Call) (r : Option Int)
    (h : c.call op = some (r, c1)) :
    c1.order.Perm c.order ∧ ∀ p ∈ r, p ∈ c.order := by
  cases op with
  | Allocate v =>
    cases hA : c.Allocate v with
    | none => simp [call, hA] at h
    | some x =>
      obtain ⟨q, c2⟩ := x
      simp only [call, hA, Option.map_some', Option.some.injEq, Prod.mk.injEq] at h
      obtain ⟨hr, hc⟩ := h
      subst hr hc
      have := Allocate_order_perm c c2 v q hA
      exact ⟨this.1, fun p hp => by
        rw [Option.mem_def, Option.some.injEq] at hp
        exact hp ▸ this.2⟩
  | Find v =>
    simp only [call, Option.some.injEq] at h
    have := Find_order_perm c v
    rw [h] at this
    exact ⟨this.1, fun p hp => this.2 p hp⟩
  | Release v =>
    simp only [call, Option.some.injEq] at h
    have := Release_order_perm c v
    rw [h] at this
    exact ⟨this.1, fun p hp => this.2 p hp⟩
  | FindPhysical q =>
    cases hF : c.FindPhysical q with
    | none => simp [call, hF] at h
    | some x =>
      obtain ⟨b, c2⟩ := x
      simp only [call, hF, Option.map_some', Option.some.injEq, Prod.mk.injEq] at h
      obtain ⟨hr, hc⟩ := h
      subst hr hc
      exact ⟨FindPhysical_order_perm c c2 q b hF, fun p hp => by simp at hp⟩

theorem calls_order_perm :
    ∀ (ops : List Call) (c c1 : KeySlotCache) (rs : List Int),
      c.calls ops = some (rs, c1) → c1.order.Perm c.order ∧ ∀ p ∈ rs, p ∈ c.order
  | [], c, c1, rs, h => by
    simp only [calls, Option.some.injEq, Prod.mk.injEq] at h
    obtain ⟨hr, hc⟩ := h
    subst hr hc
    exact ⟨List.Perm.refl _, fun p hp => by simp at hp⟩
  | op :: ops, c, c1, rs, h => by
    cases h1 : c.call op with
    | none => simp [calls, h1] at h
    | some x =>
      obtain ⟨r, c2⟩ := x
      cases h2 : calls c2 ops with
      | none => simp [calls, h1, h2] at h
      | some y =>
        obtain ⟨rs2, c3⟩ := y
        simp only [calls, h1, h2, Option.some.injEq, Prod.mk.injEq] at h
        obtain ⟨hr, hc⟩ := h
        subst hr hc
        have hstep := call_order_perm c c2 op r h1
        have hrest := calls_order_perm ops c2 c3 rs2 h2
        refine ⟨hrest.1.trans hstep.1, fun p hp => ?_⟩
        rcases List.mem_append.mp hp with hp | hp
        · exact hstep.2 p (by simpa using hp)
        · exact hstep.1.subset (hrest.2 p hp)

theorem order_ne_nil (c : KeySlotCache) : c.order ≠ [] ↔ c.m_mru_list ≠ [] := by
  simp [order]

theorem FindPhysical_none_iff (c : KeySlotCache) (p : Int) :
    c.FindPhysical p = none ↔ ∀ x ∈ c.m_mru_list, x.m_slot_index ≠ p := by
  constructor
  · intro hnone
    rcases no_index_or_first_index c.m_mru_list p with h | ⟨pre, e, post, hl, hpre, he⟩
    · exact h
    · have hc : c = ⟨pre ++ e :: post⟩ := by rw [← hl]
      rw [hc, FindPhysical_hit pre post e p hpre he] at hnone
      split at hnone <;> exact absurd hnone (by simp)
  · exact FindPhysical_miss c p

/-- In a cache with pairwise distinct physical indices, the entries in front of
an entry have other indices than it. -/
theorem distinct_before (c : KeySlotCache) (pre post : List KeySlotCacheEntry)
    (e : KeySlotCacheEntry) (hd : c.order.Nodup) (hl : c.m_mru_list = pre ++ e :: post) :
    ∀ x ∈ pre, x.m_slot_index ≠ e.m_slot_index := by
  rw [order_eq c _ hl, List.map_append, List.map_cons] at hd
  intro x hx hcon
  have hmem : e.GetPhysicalKeySlotIndex ∈ pre.map KeySlotCacheEntry.GetPhysicalKeySlotIndex :=
    List.mem_map.mpr ⟨x, hx, hcon⟩
  exact (List.nodup_append.mp hd).2.2 hmem (List.mem_cons_self _ _)

/-! ## Membership -/

/-- C11: a call of `Allocate`, `Find`, `Release` or `FindPhysical` that does not
abort leaves the physical indices of the ordering a permutation of what they
were: the length is unchanged, pairwise distinct indices stay so, a non-empty
cache stays non-empty; and in every state reached by such calls after an
`AddEntry` the cache is non-empty, so `Allocate` returns. -/
theorem membership_invariant (c c1 : KeySlotCache) (op : Call) (r : Option Int)
    (h : c.call op = some (r, c1)) :
    c1.order.Perm c.order ∧
    c1.m_mru_list.length = c.m_mru_list.length ∧
    (c.order.Nodup → c1.order.Nodup) ∧
    (c.m_mru_list ≠ [] → c1.m_mru_list ≠ []) ∧
    (∀ (c0 : KeySlotCache) (e : KeySlotCacheEntry) (ops : List Call) (rs : List Int)
        (c2 : KeySlotCache),
      (c0.AddEntry e).calls ops = some (rs, c2) →
        c2.m_mru_list ≠ [] ∧ ∀ w, (c2.Allocate w).isSome = true) := by
  have hperm := (call_order_perm c c1 op r h).1
  have keep : ∀ a b : KeySlotCache, b.order.Perm a.order → a.m_mru_list ≠ [] →
      b.m_mru_list ≠ [] := by
    intro a b hab ha hb
    have h1 : b.order = [] := by simp [order, hb]
    rw [h1] at hab
    exact (order_ne_nil a).mpr ha hab.symm.eq_nil
  refine ⟨hperm, ?_, fun hd => hperm.nodup_iff.mpr hd, keep c c1 hperm, ?_⟩
  · simpa [order] using hperm.length_eq
  · intro c0 e ops rs c2 hrun
    have hne : c2.m_mru_list ≠ [] :=
      keep (c0.AddEntry e) c2 (calls_order_perm ops _ c2 rs hrun).1 (by simp [AddEntry])
    exact ⟨hne, fun w => Allocate_isSome c2 w hne⟩

theorem membership_invariant_witness :
    (registerFresh [0, 1, 2]).call (Call.Allocate 100)
      = some (some 0, ⟨[⟨0, 100⟩, ⟨2, -1⟩, ⟨1, -1⟩]⟩) ∧
    (KeySlotCache.mk [⟨0, 100⟩, ⟨2, -1⟩, ⟨1, -1⟩]).order.Perm (registerFresh [0, 1, 2]).order ∧
    (KeySlotCache.mk [⟨0, 100⟩, ⟨2, -1⟩, ⟨1, -1⟩]).m_mru_list.length
      = (registerFresh [0, 1, 2]).m_mru_list.length ∧
    (empty.AddEntry (KeySlotCacheEntry.new 0)).calls
        [Call.Allocate 5, Call.Release 5, Call.FindPhysical 0, Call.Find 0]
      = some ([0, 0, 0], ⟨[⟨0, 0⟩]⟩) ∧
    (KeySlotCache.mk [⟨0, 0⟩]).m_mru_list ≠ [] ∧
    ∀ w, ((KeySlotCache.mk [⟨0, 0⟩]).Allocate w).isSome = true :=
  ⟨by decide,
    (membership_invariant (registerFresh [0, 1, 2]) ⟨[⟨0, 100⟩, ⟨2, -1⟩, ⟨1, -1⟩]⟩
      (Call.Allocate 100) (some 0) (by decide)).1,
    (membership_invariant (registerFresh [0, 1, 2]) ⟨[⟨0, 100⟩, ⟨2, -1⟩, ⟨1, -1⟩]⟩
      (Call.Allocate 100) (some 0) (by decide)).2.1,
    by decide,
    (membership_invariant (registerFresh [0, 1, 2]) ⟨[⟨0, 100⟩, ⟨2, -1⟩, ⟨1, -1⟩]⟩
      (Call.Allocate 100) (some 0) (by decide)).2.2.2.2 empty (KeySlotCacheEntry.new 0)
      [Call.Allocate 5, Call.Release 5, Call.FindPhysical 0, Call.Find 0] [0, 0, 0]
      ⟨[⟨0, 0⟩]⟩ (by decide)⟩

/-! ## `FindPhysical` -/

/-- C12: with pairwise distinct physical indices, for an entry whose virtual
slot equals its own physical index `p`, `FindPhysical p` returns true; the entry
is moved to the front, the others keep their order, and no binding changes. -/
theorem FindPhysical_identity (c : KeySlotCache) (pre post : List KeySlotCacheEntry)
    (e : KeySlotCacheEntry) (p : Int) (hd : c.order.Nodup)
    (hl : c.m_mru_list = pre ++ e :: post) (hp : e.GetPhysicalKeySlotIndex = p)
    (hv : e.GetVirtualKeySlotIndex = p) :
    c.FindPhysical p = some (true, ⟨e :: (pre ++ post)⟩) := by
  have hpre : ∀ x ∈ pre, x.m_slot_index ≠ p := by
    intro x hx
    have := distinct_before c pre post e hd hl x hx
    rwa [show e.m_slot_index = p from hp] at this
  have hc : c = ⟨pre ++ e :: post⟩ := by rw [← hl]
  have hv1 : e.m_virtual_slot = p := hv
  rw [hc, FindPhysical_hit pre post e p hpre hp, if_pos hv1]

theorem FindPhysical_identity_witness :
    (KeySlotCache.mk [⟨0, 10⟩, ⟨1, 1⟩, ⟨2, -1⟩]).order.Nodup ∧
    (KeySlotCache.mk [⟨0, 10⟩, ⟨1, 1⟩, ⟨2, -1⟩]).FindPhysical 1
      = some (true, ⟨[⟨1, 1⟩, ⟨0, 10⟩, ⟨2, -1⟩]⟩) :=
  ⟨by decide,
    FindPhysical_identity ⟨[⟨0, 10⟩, ⟨1, 1⟩, ⟨2, -1⟩]⟩ [⟨0, 10⟩] [⟨2, -1⟩] ⟨1, 1⟩ 1
      (by decide) rfl rfl rfl⟩

/-- C13: with pairwise distinct physical indices, for an entry of physical
index `p` whose virtual slot is anything other than `p` (another id, or the
value `-1` of an unbound entry), `FindPhysical p` returns false; afterwards the
entry is first and bound to `p`, and the others keep their bindings and their
order. -/
theorem FindPhysical_rebind (c : KeySlotCache) (pre post : List KeySlotCacheEntry)
    (e : KeySlotCacheEntry) (p : Int) (hd : c.order.Nodup)
    (hl : c.m_mru_list = pre ++ e :: post) (hp : e.GetPhysicalKeySlotIndex = p)
    (hv : e.GetVirtualKeySlotIndex ≠ p) :
    c.FindPhysical p = some (false, ⟨⟨p, p⟩ :: (pre ++ post)⟩) := by
  have hpre : ∀ x ∈ pre, x.m_slot_index ≠ p := by
    intro x hx
    have := distinct_before c pre post e hd hl x hx
    rwa [show e.m_slot_index = p from hp] at this
  have hc : c = ⟨pre ++ e :: post⟩ := by rw [← hl]
  have hv1 : ¬ e.m_virtual_slot = p := hv
  rw [hc, FindPhysical_hit pre post e p hpre hp, if_neg hv1,
    show e.m_slot_index = p from hp]

theorem FindPhysical_rebind_witness :
    (KeySlotCache.mk [⟨0, 10⟩, ⟨1, 20⟩, ⟨2, -1⟩]).order.Nodup ∧
    (KeySlotCache.mk [⟨0, 10⟩, ⟨1, 20⟩, ⟨2, -1⟩]).FindPhysical 2
      = some (false, ⟨[⟨2, 2⟩, ⟨0, 10⟩, ⟨1, 20⟩]⟩) :=
  ⟨by decide,
    FindPhysical_rebind ⟨[⟨0, 10⟩, ⟨1, 20⟩, ⟨2, -1⟩]⟩ [⟨0, 10⟩, ⟨1, 20⟩] [] ⟨2, -1⟩ 2
      (by decide) rfl rfl (by decide)⟩

/-- C14: `FindPhysical p` aborts exactly when no entry has physical index `p`;
and after any sequence of `Allocate`, `Find`, `Release` and `FindPhysical` calls
that did not abort, `FindPhysical q` does not abort for any `q` handed back by
an `Allocate`, `Find` or `Release` of the sequence. -/
theorem FindPhysical_aborts_iff (c : KeySlotCache) (p : Int) :
    (c.FindPhysical p = none ↔ ∀ x ∈ c.m_mru_list, x.GetPhysicalKeySlotIndex ≠ p) ∧
    (∀ (ops : List Call) (rs : List Int) (c1 : KeySlotCache),
      c.calls ops = some (rs, c1) → ∀ q ∈ rs, (c1.FindPhysical q).isSome = true) := by
  refine ⟨FindPhysical_none_iff c p, fun ops rs c1 hrun q hq => ?_⟩
  obtain ⟨hperm, hmem⟩ := calls_order_perm ops c c1 rs hrun
  have hq1 : q ∈ c1.order := hperm.symm.subset (hmem q hq)
  obtain ⟨x, hx, hxq⟩ := List.mem_map.mp hq1
  rw [← Option.ne_none_iff_isSome]
  intro hnone
  exact (FindPhysical_none_iff c1 q).mp hnone x hx hxq

theorem FindPhysical_aborts_iff_witness :
    (registerFresh [0, 1, 2]).calls
        [Call.Allocate 100, Call.Allocate 200, Call.FindPhysical 2, Call.Release 100]
      = some ([0, 1, 0], ⟨[⟨2, 2⟩, ⟨1, 200⟩, ⟨0, -1⟩]⟩) ∧
    ∀ q ∈ [(0 : Int), 1, 0],
      ((KeySlotCache.mk [⟨2, 2⟩, ⟨1, 200⟩, ⟨0, -1⟩]).FindPhysical q).isSome = true :=
  ⟨by decide,
    (FindPhysical_aborts_iff (registerFresh [0, 1, 2]) 0).2
      [Call.Allocate 100, Call.Allocate 200, Call.FindPhysical 2, Call.Release 100]
      [0, 1, 0] ⟨[⟨2, 2⟩, ⟨1, 200⟩, ⟨0, -1⟩]⟩ (by decide)⟩

/-! ## Entries and registration -/

/-- C15, as stated, fails at `v = -1`: `-1` is an `s32`, a freshly constructed
entry and an entry after `ClearVirtualSlot` are unbound, and `Contains (-1)` is
true on both. -/
theorem Contains_sentinel_on_unbound :
    IsS32 (-1) ∧
    (KeySlotCacheEntry.new 0).GetVirtualKeySlotIndex = -1 ∧
    (KeySlotCacheEntry.new 0).Contains (-1) = true ∧
    (KeySlotCacheEntry.mk 0 7).ClearVirtualSlot.GetVirtualKeySlotIndex = -1 ∧
    (KeySlotCacheEntry.mk 0 7).ClearVirtualSlot.Contains (-1) = true := by
  decide

/-- C15, amended: `Contains u` is true exactly when the virtual slot field
equals `u`; so for `v` other than `-1` it is true exactly when the entry is
bound and bound to `v`, and it is false on a freshly constructed entry and on
an entry after `ClearVirtualSlot`. -/
theorem Contains_iff_bound (e : KeySlotCacheEntry) (v : Int) (hv : v ≠ -1) :
    (∀ u, e.Contains u = true ↔ e.GetVirtualKeySlotIndex = u) ∧
    (e.Contains v = true ↔
      (e.GetVirtualKeySlotIndex ≠ -1 ∧ e.GetVirtualKeySlotIndex = v)) ∧
    (∀ idx, (KeySlotCacheEntry.new idx).Contains v = false) ∧
    e.ClearVirtualSlot.Contains v = false := by
  refine ⟨fun u => Contains_iff e u, ?_, fun idx => ?_, ?_⟩
  · rw [Contains_iff]
    constructor
    · intro h
      exact ⟨fun h1 => hv (by rw [← h]; exact h1), h⟩
    · exact fun h => h.2
  · rw [Contains_false_iff]
    exact fun h => hv h.symm
  · rw [Contains_false_iff]
    exact fun h => hv h.symm

theorem Contains_iff_bound_witness :
    (7 : Int) ≠ -1 ∧
    ((∀ u, (KeySlotCacheEntry.mk 3 7).Contains u = true
        ↔ (KeySlotCacheEntry.mk 3 7).GetVirtualKeySlotIndex = u) ∧
    ((KeySlotCacheEntry.mk 3 7).Contains 7 = true ↔
      ((KeySlotCacheEntry.mk 3 7).GetVirtualKeySlotIndex ≠ -1 ∧
        (KeySlotCacheEntry.mk 3 7).GetVirtualKeySlotIndex = 7)) ∧
    (∀ idx, (KeySlotCacheEntry.new idx).Contains 7 = false) ∧
    (KeySlotCacheEntry.mk 3 7).ClearVirtualSlot.Contains 7 = false) :=
  ⟨by decide, Contains_iff_bound ⟨3, 7⟩ 7 (by decide)⟩

theorem foldl_AddEntry_entries (es : List KeySlotCacheEntry) :
    ∀ c : KeySlotCache, es.foldl AddEntry c = ⟨es.reverse ++ c.m_mru_list⟩ := by
  induction es with
  | nil => intro c; rfl
  | cons e es ih =>
    intro c
    rw [List.foldl_cons, ih]
    simp [AddEntry]

/-- C16: `AddEntry e` puts `e` first and leaves the entries already there
behind it in their order; so registering `e1, ..., ek` in that order into an
empty cache gives the ordering `ek, ..., e1`, and with fresh entries each entry
of it is unbound. -/
theorem AddEntry_pushes_front (c : KeySlotCache) (e : KeySlotCacheEntry) :
    (c.AddEntry e).m_mru_list = e :: c.m_mru_list ∧
    (∀ es : List KeySlotCacheEntry, (es.foldl AddEntry empty).m_mru_list = es.reverse) ∧
    (∀ idxs : List Int,
      (registerFresh idxs).m_mru_list = (idxs.map KeySlotCacheEntry.new).reverse ∧
      ∀ x ∈ (registerFresh idxs).m_mru_list, x.GetVirtualKeySlotIndex = -1) := by
  refine ⟨rfl, fun es => ?_, fun idxs => ?_⟩
  · rw [foldl_AddEntry_entries]
    simp [empty]
  · rw [registerFresh_eq]
    refine ⟨rfl, fun x hx => ?_⟩
    simp only [List.mem_reverse, List.mem_map] at hx
    obtain ⟨i, -, rfl⟩ := hx
    rfl

/-! ## More sequences of calls -/

theorem zipWith_rebind_index :
    ∀ (l : List KeySlotCacheEntry) (vs : List Int), l.length = vs.length →
      (List.zipWith (fun e v => KeySlotCacheEntry.mk e.m_slot_index v) l vs).map
        KeySlotCacheEntry.GetPhysicalKeySlotIndex
        = l.map KeySlotCacheEntry.GetPhysicalKeySlotIndex
  | [], [], _ => rfl
  | [], _ :: _, h => by simp at h
  | _ :: _, [], h => by simp at h
  | e :: l, v :: vs, h => by
    have ih := zipWith_rebind_index l vs (by simpa using h)
    simp only [List.zipWith_cons_cons, List.map_cons, ih]
    rfl

/-- C18: on a cache of `N` entries `e0, ..., e(N-1)`, `N` consecutive `Allocate`
calls with any virtual ids return the physical indices of `e(N-1), ..., e0` in
that order, and afterwards the ordering is again `e0, ..., e(N-1)` (entry `ei`
bound to the id of call `N-i`). -/
theorem Allocate_cycles (c : KeySlotCache) (vs : List Int)
    (h : vs.length = c.m_mru_list.length) :
    ∃ c1, c.AllocateEach vs = some (c.order.reverse, c1) ∧ c1.order = c.order ∧
      c1.m_mru_list
        = List.zipWith (fun e v => KeySlotCacheEntry.mk e.m_slot_index v)
            c.m_mru_list vs.reverse := by
  have hlen : c.m_mru_list.reverse.length = vs.length := by simp [h]
  have hrun := AllocateEach_back c.m_mru_list.reverse vs [] hlen
  simp only [List.reverse_reverse, List.nil_append, List.append_nil] at hrun
  have hz : (List.zipWith (fun e v => KeySlotCacheEntry.mk e.m_slot_index v)
      c.m_mru_list.reverse vs).reverse
      = List.zipWith (fun e v => KeySlotCacheEntry.mk e.m_slot_index v)
          c.m_mru_list vs.reverse := by
    rw [List.reverse_zipWith hlen, List.reverse_reverse]
  rw [hz] at hrun
  refine ⟨⟨List.zipWith (fun e v => KeySlotCacheEntry.mk e.m_slot_index v)
    c.m_mru_list vs.reverse⟩, ?_, ?_, rfl⟩
  · have hres : List.map GetPhysicalKeySlotIndex c.m_mru_list.reverse = c.order.reverse := by
      simp [order, List.map_reverse]
    rw [hres] at hrun
    exact hrun
  · rw [order_mk, zipWith_rebind_index _ _ (by simp [h])]
    rfl

theorem Allocate_cycles_witness :
    [(10 : Int), 20, 30].length
      = (KeySlotCache.mk [⟨4, 1⟩, ⟨5, -1⟩, ⟨6, 2⟩]).m_mru_list.length ∧
    ∃ c1, (KeySlotCache.mk [⟨4, 1⟩, ⟨5, -1⟩, ⟨6, 2⟩]).AllocateEach [10, 20, 30]
        = some ((KeySlotCache.mk [⟨4, 1⟩, ⟨5, -1⟩, ⟨6, 2⟩]).order.reverse, c1) ∧
      c1.order = (KeySlotCache.mk [⟨4, 1⟩, ⟨5, -1⟩, ⟨6, 2⟩]).order ∧
      c1.m_mru_list
        = List.zipWith (fun e v => KeySlotCacheEntry.mk e.m_slot_index v)
            (KeySlotCache.mk [⟨4, 1⟩, ⟨5, -1⟩, ⟨6, 2⟩]).m_mru_list
            [(10 : Int), 20, 30].reverse :=
  ⟨by decide, Allocate_cycles ⟨[⟨4, 1⟩, ⟨5, -1⟩, ⟨6, 2⟩]⟩ [10, 20, 30] (by decide)⟩

/-- C20: when `Find v` reports found with `p`, a second `Find v` right after it
reports found with the same `p` and leaves the cache as the first call left
it. -/
theorem Find_idempotent (c c1 : KeySlotCache) (v p : Int)
    (h : c.Find v = (some p, c1)) : c1.Find v = (some p, c1) := by
  obtain ⟨pre, e, post, -, -, he, hp, hc1⟩ := Find_found_split c c1 v p h
  subst hp hc1
  have := Find_hit [] (pre ++ post) e v (by simp) he
  simpa using this

theorem Find_idempotent_witness :
    (KeySlotCache.mk [⟨0, 7⟩, ⟨1, 9⟩, ⟨2, 9⟩]).Find 9
      = (some 1, ⟨[⟨1, 9⟩, ⟨0, 7⟩, ⟨2, 9⟩]⟩) ∧
    (KeySlotCache.mk [⟨1, 9⟩, ⟨0, 7⟩, ⟨2, 9⟩]).Find 9
      = (some 1, ⟨[⟨1, 9⟩, ⟨0, 7⟩, ⟨2, 9⟩]⟩) :=
  ⟨by decide, Find_idempotent ⟨[⟨0, 7⟩, ⟨1, 9⟩, ⟨2, 9⟩]⟩ _ 9 1 (by decide)⟩

/-! ## Uniqueness of bindings -/

theorem Injective_of_sublist (l1 l2 : List KeySlotCacheEntry) (hs : l1.Sublist l2)
    (h : Injective ⟨l2⟩) : Injective ⟨l1⟩ := by
  unfold Injective at *
  exact List.Nodup.sublist ((hs.map _).filter _) h

theorem Injective_of_perm (l1 l2 : List KeySlotCacheEntry) (hp : l1.Perm l2)
    (h : Injective ⟨l2⟩) : Injective ⟨l1⟩ := by
  unfold Injective at *
  exact ((hp.map _).filter _).nodup_iff.mpr h

theorem Injective_concat_unbound (l : List KeySlotCacheEntry) (idx : Int)
    (h : Injective ⟨l⟩) : Injective ⟨l ++ [⟨idx, -1⟩]⟩ := by
  unfold Injective at *
  simpa [GetVirtualKeySlotIndex, List.filter_cons] using h

theorem Injective_cons_fresh (l : List KeySlotCacheEntry) (idx v : Int) (hv : v ≠ -1)
    (hfree : ∀ x ∈ l, x.m_virtual_slot ≠ v) (h : Injective ⟨l⟩) :
    Injective ⟨⟨idx, v⟩ :: l⟩ := by
  unfold Injective at *
  have hv1 : (v != -1) = true := by simpa using hv
  simp only [List.map_cons, GetVirtualKeySlotIndex, List.filter_cons, hv1, if_true,
    List.nodup_cons]
  refine ⟨fun hmem => ?_, by simpa [GetVirtualKeySlotIndex] using h⟩
  obtain ⟨x, hx, hxv⟩ := List.mem_map.mp (List.mem_filter.mp hmem).1
  exact hfree x hx hxv

/-- C17: on a cache where no two entries are bound to the same virtual slot,
`Find` and `Release` keep it so for every argument; `Allocate v` keeps it so
when `v` is not `-1` and no entry is bound to `v`, and then exactly one entry
is bound to `v` afterwards. -/
theorem binding_uniqueness (c : KeySlotCache) (hinj : c.Injective) :
    (∀ v, (c.Find v).2.Injective) ∧
    (∀ v, (c.Release v).2.Injective) ∧
    (∀ v p c1, v ≠ -1 → (∀ x ∈ c.m_mru_list, x.GetVirtualKeySlotIndex ≠ v) →
      c.Allocate v = some (p, c1) →
        c1.Injective ∧ (c1.m_mru_list.filter (fun x => x.Contains v)).length = 1) := by
  refine ⟨fun v => ?_, fun v => ?_, fun v p c1 hv hfree hA => ?_⟩
  · rcases miss_or_first_match c.m_mru_list v with hm | ⟨pre, e, post, hl, hpre, he⟩
    · rw [Find_miss c v hm]; exact hinj
    · have hc : c = ⟨pre ++ e :: post⟩ := by rw [← hl]
      rw [hc] at hinj ⊢
      rw [Find_hit pre post e v hpre he]
      exact Injective_of_perm _ _ List.perm_middle.symm hinj
  · rcases miss_or_first_match c.m_mru_list v with hm | ⟨pre, e, post, hl, hpre, he⟩
    · rw [Release_miss c v hm]; exact hinj
    · have hc : c = ⟨pre ++ e :: post⟩ := by rw [← hl]
      rw [hc] at hinj ⊢
      rw [Release_hit pre post e v hpre he]
      apply Injective_concat_unbound
      exact Injective_of_sublist _ _
        (List.Sublist.append_left (List.sublist_cons_self e post) pre) hinj
  · obtain ⟨others, tail, hl, -, hc1⟩ := Allocate_some_split c c1 v p hA
    subst hc1
    have hc : c = ⟨others ++ [tail]⟩ := by rw [← hl]
    rw [hc] at hinj
    have hfree1 : ∀ x ∈ others, x.m_virtual_slot ≠ v :=
      fun x hx => hfree x (by rw [hl]; exact List.mem_append_left _ hx)
    refine ⟨Injective_cons_fresh others _ v hv hfree1
      (Injective_of_sublist _ _ (List.sublist_append_left others [tail]) hinj), ?_⟩
    have hnone : others.filter (fun x => x.Contains v) = [] := by
      rw [List.filter_eq_nil_iff]
      intro x hx
      rw [Bool.not_eq_true, Contains_false_iff]
      exact hfree1 x hx
    have hhead : (KeySlotCacheEntry.mk tail.m_slot_index v).Contains v = true := by
      rw [Contains_iff]
    simp [List.filter_cons, hhead, hnone]

theorem binding_uniqueness_witness :
    (KeySlotCache.mk [⟨0, 7⟩, ⟨1, -1⟩, ⟨2, -1⟩]).Injective ∧
    ((KeySlotCache.mk [⟨0, 7⟩, ⟨1, -1⟩, ⟨2, -1⟩]).Find 7).2.Injective ∧
    ((KeySlotCache.mk [⟨0, 7⟩, ⟨1, -1⟩, ⟨2, -1⟩]).Release 7).2.Injective ∧
    (KeySlotCache.mk [⟨0, 7⟩, ⟨1, -1⟩, ⟨2, -1⟩]).Allocate 9
      = some (2, ⟨[⟨2, 9⟩, ⟨0, 7⟩, ⟨1, -1⟩]⟩) ∧
    (KeySlotCache.mk [⟨2, 9⟩, ⟨0, 7⟩, ⟨1, -1⟩]).Injective ∧
    ((KeySlotCache.mk [⟨2, 9⟩, ⟨0, 7⟩, ⟨1, -1⟩]).m_mru_list.filter
      (fun x => x.Contains 9)).length = 1 :=
  ⟨by decide,
    (binding_uniqueness ⟨[⟨0, 7⟩, ⟨1, -1⟩, ⟨2, -1⟩]⟩ (by decide)).1 7,
    (binding_uniqueness ⟨[⟨0, 7⟩, ⟨1, -1⟩, ⟨2, -1⟩]⟩ (by decide)).2.1 7,
    by decide,
    (binding_uniqueness ⟨[⟨0, 7⟩, ⟨1, -1⟩, ⟨2, -1⟩]⟩ (by decide)).2.2 9 2
      ⟨[⟨2, 9⟩, ⟨0, 7⟩, ⟨1, -1⟩]⟩ (by decide) (by decide) (by decide)⟩

/-! ## The entry touched last -/

/-- With pairwise distinct physical indices and an entry behind the first one,
`Allocate` takes another entry than the first and leaves the first as it is. -/
theorem Allocate_spares_front (c1 : KeySlotCache) (e : KeySlotCacheEntry)
    (rest : List KeySlotCacheEntry) (hl : c1.m_mru_list = e :: rest)
    (hd : c1.order.Nodup) (hlen : 2 ≤ c1.m_mru_list.length) (w : Int) :
    ∃ q c2, c1.Allocate w = some (q, c2) ∧ q ≠ e.m_slot_index ∧
      ∀ x : KeySlotCacheEntry, x.GetPhysicalKeySlotIndex = e.m_slot_index →
        (x ∈ c2.m_mru_list ↔ x ∈ c1.m_mru_list) := by
  have hne : rest ≠ [] := by
    intro hnil
    rw [hl, hnil] at hlen
    simp at hlen
  have hrest : rest.dropLast ++ [rest.getLast hne] = rest := List.dropLast_concat_getLast hne
  generalize rest.dropLast = others at hrest
  generalize rest.getLast hne = t at hrest
  subst hrest
  have hc : c1 = ⟨(e :: others) ++ [t]⟩ := by rw [List.cons_append, ← hl]
  rw [order_eq c1 _ hl] at hd
  simp only [List.map_cons, List.map_append, List.map_nil, List.nodup_cons, List.mem_append,
    List.mem_map, List.mem_singleton, GetPhysicalKeySlotIndex, not_or, not_exists,
    not_and] at hd
  have ht : t.m_slot_index ≠ e.m_slot_index := fun h => hd.1.2 h.symm
  refine ⟨t.m_slot_index, ⟨⟨t.m_slot_index, w⟩ :: e :: others⟩, ?_, ht, fun x hx => ?_⟩
  · rw [hc]; exact Allocate_concat (e :: others) t w
  · rw [hl]
    simp only [List.mem_cons, List.mem_append, List.not_mem_nil, or_false]
    constructor
    · rintro (h | h | h)
      · exact absurd (by rw [h] at hx; exact hx) ht
      · exact Or.inl h
      · exact Or.inr (Or.inl h)
    · rintro (h | h | h)
      · exact Or.inr (Or.inl h)
      · exact Or.inr (Or.inr h)
      · exact absurd (by rw [h] at hx; exact hx) ht

/-- C19: with at least two entries of pairwise distinct physical indices, after
an `Allocate` that returned `p`, a `Find` that reported found with `p`, or a
`FindPhysical p` that did not abort, the next `Allocate w` returns another index
than `p` and leaves the entry of physical index `p` as it is. -/
theorem most_recent_not_evicted (c c1 : KeySlotCache) (p w : Int) (hd : c.order.Nodup)
    (hlen : 2 ≤ c.m_mru_list.length)
    (h : (∃ v, c.Allocate v = some (p, c1)) ∨ (∃ v, c.Find v = (some p, c1)) ∨
      (∃ b, c.FindPhysical p = some (b, c1))) :
    ∃ q c2, c1.Allocate w = some (q, c2) ∧ q ≠ p ∧
      ∀ x : KeySlotCacheEntry, x.GetPhysicalKeySlotIndex = p →
        (x ∈ c2.m_mru_list ↔ x ∈ c1.m_mru_list) := by
  have key : ∀ (e : KeySlotCacheEntry) (rest : List KeySlotCacheEntry),
      c1.order.Perm c.order → c1.m_mru_list = e :: rest → e.m_slot_index = p →
      ∃ q c2, c1.Allocate w = some (q, c2) ∧ q ≠ p ∧
        ∀ x : KeySlotCacheEntry, x.GetPhysicalKeySlotIndex = p →
          (x ∈ c2.m_mru_list ↔ x ∈ c1.m_mru_list) := by
    intro e rest hperm hl he
    have hlen1 : 2 ≤ c1.m_mru_list.length := by
      have := hperm.length_eq
      simp only [order, List.length_map] at this
      omega
    have := Allocate_spares_front c1 e rest hl (hperm.nodup_iff.mpr hd) hlen1 w
    rwa [he] at this
  rcases h with ⟨v, hA⟩ | ⟨v, hF⟩ | ⟨b, hP⟩
  · obtain ⟨others, tail, -, hp, hc1⟩ := Allocate_some_split c c1 v p hA
    exact key ⟨tail.m_slot_index, v⟩ others (Allocate_order_perm c c1 v p hA).1
      (by rw [hc1]) hp.symm
  · obtain ⟨pre, e, post, -, -, -, hp, hc1⟩ := Find_found_split c c1 v p hF
    have hperm := (Find_order_perm c v).1
    rw [hF] at hperm
    exact key e (pre ++ post) hperm (by rw [hc1]) hp.symm
  · have hperm := FindPhysical_order_perm c c1 p b hP
    obtain ⟨pre, e, post, -, -, he, hcase⟩ := FindPhysical_some_split c c1 p b hP
    rcases hcase with ⟨-, -, hc1⟩ | ⟨-, -, hc1⟩
    · exact key e (pre ++ post) hperm (by rw [hc1]) he
    · exact key ⟨e.m_slot_index, p⟩ (pre ++ post) hperm (by rw [hc1]) he

theorem most_recent_not_evicted_witness :
    (KeySlotCache.mk [⟨0, 7⟩, ⟨1, 9⟩, ⟨2, -1⟩]).order.Nodup ∧
    2 ≤ (KeySlotCache.mk [⟨0, 7⟩, ⟨1, 9⟩, ⟨2, -1⟩]).m_mru_list.length ∧
    (KeySlotCache.mk [⟨0, 7⟩, ⟨1, 9⟩, ⟨2, -1⟩]).Find 9
      = (some 1, ⟨[⟨1, 9⟩, ⟨0, 7⟩, ⟨2, -1⟩]⟩) ∧
    ∃ q c2, (KeySlotCache.mk [⟨1, 9⟩, ⟨0, 7⟩, ⟨2, -1⟩]).Allocate 30 = some (q, c2) ∧ q ≠ 1 ∧
      ∀ x : KeySlotCacheEntry, x.GetPhysicalKeySlotIndex = 1 →
        (x ∈ c2.m_mru_list ↔ x ∈ (KeySlotCache.mk [⟨1, 9⟩, ⟨0, 7⟩, ⟨2, -1⟩]).m_mru_list) :=
  ⟨by decide, by decide, by decide,
    most_recent_not_evicted ⟨[⟨0, 7⟩, ⟨1, 9⟩, ⟨2, -1⟩]⟩ ⟨[⟨1, 9⟩, ⟨0, 7⟩, ⟨2, -1⟩]⟩ 1 30
      (by decide) (by decide) (Or.inr (Or.inl ⟨9, by decide⟩))⟩

end ams.spl
